import Mathlib

/-!
Verification of the luminance-variance pipeline in `luminance.py`
(`calculate_luminance_variance`), shallowly embedded over exact rational
arithmetic.  Pixel grids are `List (List (List ℕ))` (rows × columns ×
channel samples); fallible numpy channel slicing (`img_array[:,:,i]`) is
embedded as `Option`-valued per-pixel channel access, with the whole
projection failing iff some pixel lacks channel 0, 1 or 2, matching the
IndexError the numpy slice raises for arrays with fewer than 3 channels.
Machine floats are modelled by `ℚ`; division by zero follows Lean's
`x / 0 = 0` convention and is tracked separately via `pipelineDivisors`.
-/

namespace Luminance

/-- Rec. 709 red coefficient (line 14 of `luminance.py`). -/
def r_coeff : ℚ := 0.2126

/-- Rec. 709 green coefficient (line 14). -/
def g_coeff : ℚ := 0.7152

/-- Rec. 709 blue coefficient (line 14). -/
def b_coeff : ℚ := 0.0722

/-- `np.array(img).astype(float) / 255.0` on one sample (line 11). -/
def normalizeSample (s : ℕ) : ℚ := (s : ℚ) / 255

/-- Normalization applied to one pixel's channel list. -/
def normalizePixel (px : List ℕ) : List ℚ := px.map normalizeSample

/-- Normalization applied to the whole decoded pixel grid (line 11). -/
def normalizeGrid (img : List (List (List ℕ))) : List (List (List ℚ)) :=
  img.map fun row => row.map normalizePixel

/-- Effectful elementwise map: `some` of the pointwise images when every
element succeeds, `none` as soon as one element fails.  This is the
semantics of a numpy whole-array operation that can raise. -/
def optMap (f : α → Option β) : List α → Option (List β)
  | [] => some []
  | a :: l =>
    match f a, optMap f l with
    | some b, some m => some (b :: m)
    | _, _ => none

/-- Luminance of one pixel: `px[0]*r_coeff + px[1]*g_coeff + px[2]*b_coeff`
(lines 17–19), `none` when a channel index 0, 1 or 2 is out of range
(the IndexError case of the numpy slices `img_array[:,:,i]`). -/
def lumPixel (px : List ℚ) : Option ℚ :=
  match px.get? 0, px.get? 1, px.get? 2 with
  | some r, some g, some b => some (r * r_coeff + g * g_coeff + b * b_coeff)
  | _, _, _ => none

/-- The 2-D luminance grid (lines 17–19), failing iff some pixel lacks a
channel among 0, 1, 2. -/
def luminanceGrid (a : List (List (List ℚ))) : Option (List (List ℚ)) :=
  optMap (fun row => optMap lumPixel row) a

/-- `np.sum` over the (flattened) array. -/
def npSum (l : List ℚ) : ℚ := l.sum

/-- `np.mean`: sum divided by element count. -/
def npMean (l : List ℚ) : ℚ := npSum l / l.length

/-- Method 1, `np.var(luminance)` (line 24): the mean of the absolute
squared deviations from the mean, numpy's documented definition. -/
def variance_np (l : List ℚ) : ℚ :=
  npMean (l.map fun x => |x - npMean l| ^ 2)

/-- Method 2 (lines 27–30): `(sum_lum_squared / N) - (sum_lum / N) ** 2`
with `N = luminance.size`. -/
def variance_manual (l : List ℚ) : ℚ :=
  npSum (l.map fun x => x ^ 2) / l.length - (npSum l / l.length) ^ 2

/-- Method 3 (lines 33–34): `np.mean((luminance - mean_lum) ** 2)` with
`mean_lum = np.mean(luminance)`. -/
def variance_mean (l : List ℚ) : ℚ :=
  npMean (l.map fun x => (x - npMean l) ^ 2)

/-- The 51 bin edges of `np.histogram(luminance, bins=50, range=(0,1))`
(line 49): `0, 1/50, 2/50, …, 1`. -/
def binEdges : List ℚ := (List.range 51).map fun i : ℕ => (i : ℚ) / 50

/-- Membership of a value in histogram bin `i` (line 49): half-open
`[i/50, (i+1)/50)` for the first 49 bins, closed `[49/50, 1]` for the
last bin — numpy's equal-width histogram semantics. -/
def inBin (i : ℕ) (v : ℚ) : Bool :=
  if i < 49 then decide ((i : ℚ) / 50 ≤ v) && decide (v < ((i : ℚ) + 1) / 50)
  else decide ((49 : ℚ) / 50 ≤ v) && decide (v ≤ 1)

/-- The 50 histogram counts of line 49, one per bin. -/
def histCounts (l : List ℚ) : List ℕ :=
  (List.range 50).map fun i => l.countP (inBin i)

/-- The luminance value lines 17–19 assign to a pixel with channel
samples `r`, `g`, `b` at indices 0, 1, 2. -/
def lumOf (r g b : ℕ) : ℚ :=
  (r : ℚ) / 255 * r_coeff + (g : ℚ) / 255 * g_coeff + (b : ℚ) / 255 * b_coeff

/-- Index of the histogram bin receiving a value of [0,1]: `⌊50v⌋`,
capped at 49 so that the value 1 falls in the closed last bin. -/
def binIndex (v : ℚ) : ℕ := min 49 ⌊50 * v⌋.toNat

/-- The whole pipeline from a decoded pixel grid to the function's return
value: lines 11–53.  The returned scalar is `variance_manual` of the
flattened luminance grid (line 53: `return variance_manual`). -/
def calculate_luminance_variance (img : List (List (List ℕ))) : Option ℚ :=
  (luminanceGrid (normalizeGrid img)).map fun lum => variance_manual lum.flatten

/-- Every divisor appearing in the pipeline, in source order: `255.0`
(line 11), the `N` inside `np.var` (line 24), the two explicit `/ N` of
line 30, the `N` inside `np.mean` of line 33 and the one inside the outer
`np.mean` of line 34. -/
def pipelineDivisors (l : List ℚ) : List ℚ :=
  [255, (l.length : ℚ), (l.length : ℚ), (l.length : ℚ),
   (l.length : ℚ), (l.length : ℚ)]

/-! ### Structural lemmas about `optMap` -/

lemma optMap_map_of_forall {α β γ : Type} (f : β → Option γ) (g : α → β) (h : α → γ) :
    ∀ l : List α, (∀ a ∈ l, f (g a) = some (h a)) → optMap f (l.map g) = some (l.map h)
  | [], _ => rfl
  | a :: l, hfg => by
    have h1 : f (g a) = some (h a) := hfg a (List.mem_cons_self a l)
    have h2 : optMap f (l.map g) = some (l.map h) :=
      optMap_map_of_forall f g h l fun x hx => hfg x (List.mem_cons_of_mem a hx)
    simp [List.map_cons, optMap, h1, h2]

lemma optMap_replicate {α β : Type} (f : α → Option β) (a : α) (b : β) (hf : f a = some b) :
    ∀ n, optMap f (List.replicate n a) = some (List.replicate n b)
  | 0 => rfl
  | n + 1 => by
    simp [List.replicate_succ, optMap, hf, optMap_replicate f a b hf n]

lemma mem_of_optMap {α β : Type} (f : α → Option β) :
    ∀ (l : List α) (m : List β), optMap f l = some m → ∀ b ∈ m, ∃ a ∈ l, f a = some b := by
  intro l
  induction l with
  | nil =>
    intro m hm b hb
    simp only [optMap] at hm
    cases hm
    simp at hb
  | cons a l ih =>
    intro m hm b hb
    rcases hfa : f a with _ | c
    · simp [optMap, hfa] at hm
    · rcases hom : optMap f l with _ | m2
      · simp [optMap, hfa, hom] at hm
      · simp only [optMap, hfa, hom] at hm
        cases hm
        rcases List.mem_cons.mp hb with rfl | hb2
        · exact ⟨a, List.mem_cons_self a l, hfa⟩
        · obtain ⟨x, hx, hfx⟩ := ih m2 hom b hb2
          exact ⟨x, List.mem_cons_of_mem a hx, hfx⟩

lemma optMap_eq_none_of_mem {α β : Type} (f : α → Option β) (a : α) :
    ∀ (l : List α), a ∈ l → f a = none → optMap f l = none := by
  intro l
  induction l with
  | nil => intro h; cases h
  | cons x l ih =>
    intro ha hfa
    rcases List.mem_cons.mp ha with rfl | h2
    · cases hom : optMap f l <;> simp [optMap, hfa, hom]
    · have hnone := ih h2 hfa
      cases hfx : f x <;> simp [optMap, hfx, hnone]

/-! ### Algebraic identities between the three variance methods -/

lemma sum_map_sq_sub (m : ℚ) : ∀ l : List ℚ,
    (l.map fun x => (x - m) ^ 2).sum
      = (l.map fun x => x ^ 2).sum - 2 * m * l.sum + l.length * m ^ 2
  | [] => by simp
  | a :: l => by
    simp only [List.map_cons, List.sum_cons, List.length_cons, sum_map_sq_sub m l]
    push_cast
    ring

lemma variance_manual_eq_variance_mean (l : List ℚ) :
    variance_manual l = variance_mean l := by
  rcases eq_or_ne l [] with rfl | hne
  · simp [variance_manual, variance_mean, npSum, npMean]
  · have hN : (l.length : ℚ) ≠ 0 :=
      Nat.cast_ne_zero.mpr (List.length_pos.mpr hne).ne'
    unfold variance_manual variance_mean npMean npSum
    rw [sum_map_sq_sub]
    field_simp
    ring

lemma variance_np_eq_variance_mean (l : List ℚ) :
    variance_np l = variance_mean l := by
  simp [variance_np, variance_mean, sq_abs]

lemma npMean_nonneg (l : List ℚ) (h : ∀ x ∈ l, 0 ≤ x) : 0 ≤ npMean l :=
  div_nonneg (List.sum_nonneg h) (Nat.cast_nonneg _)

lemma variance_mean_nonneg (l : List ℚ) : 0 ≤ variance_mean l := by
  apply npMean_nonneg
  intro x hx
  obtain ⟨y, _, rfl⟩ := List.mem_map.mp hx
  positivity

/-! ### Histogram bin lemmas -/

lemma inBin_lt_iff {i : ℕ} (hi : i < 49) (v : ℚ) :
    inBin i v = true ↔ ((i : ℚ) / 50 ≤ v ∧ v < ((i : ℚ) + 1) / 50) := by
  simp [inBin, hi]

lemma inBin_last_iff (v : ℚ) :
    inBin 49 v = true ↔ ((49 : ℚ) / 50 ≤ v ∧ v ≤ 1) := by
  simp [inBin]

lemma inBin_binIndex {v : ℚ} (h0 : 0 ≤ v) (h1 : v ≤ 1) :
    binIndex v < 50 ∧ inBin (binIndex v) v = true := by
  have hk0 : 0 ≤ ⌊50 * v⌋ := Int.floor_nonneg.mpr (by positivity)
  by_cases hv : (49 : ℚ) / 50 ≤ v
  · have h49 : (49 : ℤ) ≤ ⌊50 * v⌋ := by
      rw [Int.le_floor]
      push_cast
      linarith
    have hbi : binIndex v = 49 := by
      unfold binIndex
      omega
    rw [hbi]
    exact ⟨by norm_num, (inBin_last_iff v).mpr ⟨hv, h1⟩⟩
  · push_neg at hv
    have hkle : ((⌊50 * v⌋ : ℤ) : ℚ) ≤ 50 * v := Int.floor_le _
    have hklt : 50 * v < ⌊50 * v⌋ + 1 := Int.lt_floor_add_one _
    have hk49 : ⌊50 * v⌋ < 49 := by
      have h49q : ((⌊50 * v⌋ : ℤ) : ℚ) < 49 := lt_of_le_of_lt hkle (by linarith)
      exact_mod_cast h49q
    have hbi : binIndex v = ⌊50 * v⌋.toNat := by
      unfold binIndex
      omega
    have hik : ((⌊50 * v⌋.toNat : ℕ) : ℚ) = ((⌊50 * v⌋ : ℤ) : ℚ) := by
      exact_mod_cast Int.toNat_of_nonneg hk0
    rw [hbi]
    refine ⟨by omega, ?_⟩
    rw [inBin_lt_iff (by omega)]
    constructor
    · rw [div_le_iff (by norm_num : (0:ℚ) < 50), hik]
      linarith
    · rw [lt_div_iff (by norm_num : (0:ℚ) < 50), hik]
      linarith

lemma exists_bin {v : ℚ} (h0 : 0 ≤ v) (h1 : v ≤ 1) :
    ∃ i, i < 50 ∧ inBin i v = true :=
  ⟨binIndex v, (inBin_binIndex h0 h1).1, (inBin_binIndex h0 h1).2⟩

lemma inBin_disjoint {i j : ℕ} (hij : i < j) (hj : j < 50) (v : ℚ)
    (hvi : inBin i v = true) : inBin j v = false := by
  have hi49 : i < 49 := by omega
  have hupper : v < ((i : ℚ) + 1) / 50 := ((inBin_lt_iff hi49 v).mp hvi).2
  have hlow : ¬ ((j : ℚ) / 50 ≤ v) := by
    intro hle
    have h1 : ((i : ℚ) + 1) ≤ (j : ℚ) := by exact_mod_cast hij
    have h2 : ((i : ℚ) + 1) / 50 ≤ (j : ℚ) / 50 :=
      div_le_div_of_nonneg_right h1 (by norm_num)
    linarith
  rcases Nat.lt_or_ge j 49 with hj49 | hj49
  · rw [Bool.eq_false_iff]
    intro ht
    exact hlow ((inBin_lt_iff hj49 v).mp ht).1
  · have hj' : j = 49 := by omega
    subst hj'
    rw [Bool.eq_false_iff]
    intro ht
    refine hlow ?_
    have := ((inBin_last_iff v).mp ht).1
    push_cast
    linarith

lemma inBin_eq_false_of_ne {i₀ j : ℕ} (hi₀ : i₀ < 50) (hj : j < 50)
    (hne : j ≠ i₀) {v : ℚ} (hbi : inBin i₀ v = true) : inBin j v = false := by
  rcases lt_or_gt_of_ne hne with hlt | hgt
  · by_cases hb : inBin j v = true
    · exfalso
      have hfalse := inBin_disjoint hlt hi₀ v hb
      rw [hbi] at hfalse
      cases hfalse
    · exact Bool.eq_false_iff.mpr hb
  · exact inBin_disjoint hgt hj v hbi

lemma sum_indicator_bins {v : ℚ} (h0 : 0 ≤ v) (h1 : v ≤ 1) :
    (∑ i in Finset.range 50, if inBin i v then 1 else 0) = 1 := by
  obtain ⟨i₀, hi₀, hbin⟩ := exists_bin h0 h1
  rw [Finset.sum_eq_single_of_mem i₀ (Finset.mem_range.mpr hi₀)]
  · simp [hbin]
  · intro j hj hne
    have hj50 := Finset.mem_range.mp hj
    rcases lt_or_gt_of_ne hne with hlt | hgt
    · by_cases hb : inBin j v = true
      · exfalso
        have hfalse := inBin_disjoint hlt hi₀ v hb
        rw [hbin] at hfalse
        cases hfalse
      · simp [Bool.eq_false_iff.mpr hb]
    · simp [inBin_disjoint hgt hj50 v hbin]

lemma sum_range_map (f : ℕ → ℕ) : ∀ n, ((List.range n).map f).sum = ∑ i in Finset.range n, f i
  | 0 => by simp
  | n + 1 => by
    rw [List.range_succ, List.map_append, List.sum_append, Finset.sum_range_succ,
      sum_range_map f n]
    simp

lemma sum_countP_bins : ∀ (l : List ℚ), (∀ v ∈ l, 0 ≤ v ∧ v ≤ 1) →
    (∑ i in Finset.range 50, l.countP (inBin i)) = l.length
  | [], _ => by simp
  | x :: l, h => by
    have hx := h x (List.mem_cons_self x l)
    have hl := sum_countP_bins l fun v hv => h v (List.mem_cons_of_mem x hv)
    simp only [List.countP_cons, List.length_cons]
    rw [Finset.sum_add_distrib, hl, sum_indicator_bins hx.1 hx.2]

lemma histCounts_sum (l : List ℚ) (h : ∀ v ∈ l, 0 ≤ v ∧ v ≤ 1) :
    (histCounts l).sum = l.length := by
  unfold histCounts
  rw [sum_range_map, sum_countP_bins l h]

lemma binEdges_pairwise : List.Pairwise (· < ·) binEdges :=
  List.Pairwise.map (fun i : ℕ => (i : ℚ) / 50)
    (fun _ _ hab => div_lt_div_of_pos_right (by exact_mod_cast hab) (by norm_num))
    (List.pairwise_lt_range 51)

/-! ### Replicate (uniform image) lemmas -/

lemma flatten_replicate (c : ℚ) : ∀ (m n : ℕ),
    (List.replicate m (List.replicate n c)).flatten = List.replicate (m * n) c
  | 0, n => by simp
  | m + 1, n => by
    rw [List.replicate_succ, List.flatten_cons, flatten_replicate c m n,
      ← List.replicate_add]
    congr 1
    ring

lemma countP_replicate (p : ℚ → Bool) (c : ℚ) :
    ∀ n, (List.replicate n c).countP p = if p c then n else 0
  | 0 => by simp
  | n + 1 => by
    rw [List.replicate_succ, List.countP_cons, countP_replicate p c n]
    by_cases h : p c <;> simp [h]

lemma npMean_replicate {n : ℕ} (hn : n ≠ 0) (c : ℚ) :
    npMean (List.replicate n c) = c := by
  have hq : (n : ℚ) ≠ 0 := Nat.cast_ne_zero.mpr hn
  unfold npMean npSum
  rw [List.sum_replicate, List.length_replicate, nsmul_eq_mul]
  field_simp

lemma variance_mean_replicate {n : ℕ} (hn : n ≠ 0) (c : ℚ) :
    variance_mean (List.replicate n c) = 0 := by
  unfold variance_mean
  rw [npMean_replicate hn, List.map_replicate]
  simp [npMean, npSum, List.sum_replicate]

/-! ### Per-pixel luminance lemmas -/

lemma lumPixel_normalize_cons (r g b : ℕ) (rest : List ℕ) :
    lumPixel (normalizePixel (r :: g :: b :: rest))
      = some ((r : ℚ) / 255 * r_coeff + (g : ℚ) / 255 * g_coeff
          + (b : ℚ) / 255 * b_coeff) := by
  simp [lumPixel, normalizePixel, normalizeSample]

lemma coeff_sum : r_coeff + g_coeff + b_coeff = 1 := by
  norm_num [r_coeff, g_coeff, b_coeff]

lemma lumPixel_range {px : List ℚ} (hpx : ∀ v ∈ px, 0 ≤ v ∧ v ≤ 1) {L : ℚ}
    (h : lumPixel px = some L) : 0 ≤ L ∧ L ≤ 1 := by
  revert h
  unfold lumPixel
  rcases h0 : px.get? 0 with _ | r
  · intro h; cases h
  · rcases h1 : px.get? 1 with _ | g
    · intro h; cases h
    · rcases h2 : px.get? 2 with _ | b
      · intro h; cases h
      · intro h
        cases h
        obtain ⟨hr0, hr1⟩ := hpx r (List.get?_mem h0)
        obtain ⟨hg0, hg1⟩ := hpx g (List.get?_mem h1)
        obtain ⟨hb0, hb1⟩ := hpx b (List.get?_mem h2)
        have hrc : (0:ℚ) ≤ r_coeff := by norm_num [r_coeff]
        have hgc : (0:ℚ) ≤ g_coeff := by norm_num [g_coeff]
        have hbc : (0:ℚ) ≤ b_coeff := by norm_num [b_coeff]
        constructor
        · positivity
        · have h1 : r * r_coeff ≤ r_coeff := mul_le_of_le_one_left hrc hr1
          have h2 : g * g_coeff ≤ g_coeff := mul_le_of_le_one_left hgc hg1
          have h3 : b * b_coeff ≤ b_coeff := mul_le_of_le_one_left hbc hb1
          have := coeff_sum
          linarith

lemma normalizePixel_range {px : List ℕ} (h : ∀ s ∈ px, s ≤ 255) :
    ∀ v ∈ normalizePixel px, 0 ≤ v ∧ v ≤ 1 := by
  intro v hv
  obtain ⟨s, hs, rfl⟩ := List.mem_map.mp hv
  unfold normalizeSample
  constructor
  · positivity
  · rw [div_le_one (by norm_num : (0:ℚ) < 255)]
    exact_mod_cast h s hs

lemma lumPixel_eq_none {px : List ℚ} (h2 : px.get? 2 = none) :
    lumPixel px = none := by
  unfold lumPixel
  rw [h2]
  rcases px.get? 0 with _ | r <;> rcases px.get? 1 with _ | g <;> rfl

lemma normalizePixel_get?_none {px : List ℕ} {i : ℕ} (h : px.length ≤ i) :
    (normalizePixel px).get? i = none :=
  List.get?_eq_none.mpr (by simpa [normalizePixel] using h)

/-! ### Claim theorems -/

/-- C1: for every non-empty 2-D luminance grid with values in [0,1], the
three variance estimators — `np.var` (line 24), the sum/sum-of-squares
formula (lines 27–30) and the two-pass mean-subtraction formula
(lines 33–34) — compute exactly equal results over exact rational
arithmetic. -/
theorem C1_variance_methods_agree (g : List (List ℚ))
    (h1 : g.flatten ≠ [])
    (h2 : ∀ row ∈ g, ∀ v ∈ row, 0 ≤ v ∧ v ≤ 1) :
    variance_np g.flatten = variance_manual g.flatten ∧
      variance_manual g.flatten = variance_mean g.flatten :=
  ⟨(variance_np_eq_variance_mean _).trans
      (variance_manual_eq_variance_mean _).symm,
    variance_manual_eq_variance_mean _⟩

/-- Witness for C1 at the concrete grid `[[0, 1]]`. -/
theorem C1_witness :
    variance_np ([[0, 1]] : List (List ℚ)).flatten
        = variance_manual ([[0, 1]] : List (List ℚ)).flatten ∧
      variance_manual ([[0, 1]] : List (List ℚ)).flatten
        = variance_mean ([[0, 1]] : List (List ℚ)).flatten :=
  C1_variance_methods_agree [[0, 1]] (by simp) (by norm_num)

/-- C2: the scalar `calculate_luminance_variance` hands back to its caller
is `variance_manual` of the flattened luminance grid (line 53), and over
exact rational arithmetic that value equals the mean-subtraction-method
variance of lines 33–34; the printed report is separate from this return
value.  Note the source's `return variance_manual` returns the
sum/sum-of-squares expression, which is proved here to evaluate to the
same rational as the mean-subtraction expression. -/
theorem C2_return_value (img : List (List (List ℕ))) (lum : List (List ℚ))
    (h : luminanceGrid (normalizeGrid img) = some lum) :
    calculate_luminance_variance img = some (variance_manual lum.flatten) ∧
      variance_manual lum.flatten = variance_mean lum.flatten := by
  constructor
  · simp [calculate_luminance_variance, h]
  · exact variance_manual_eq_variance_mean _

/-- Witness for C2 at the concrete all-black 1×1 image. -/
theorem C2_witness :
    calculate_luminance_variance [[[0, 0, 0]]]
        = some (variance_manual ([[0]] : List (List ℚ)).flatten) ∧
      variance_manual ([[0]] : List (List ℚ)).flatten
        = variance_mean ([[0]] : List (List ℚ)).flatten :=
  C2_return_value [[[0, 0, 0]]] [[0]]
    (by norm_num [luminanceGrid, normalizeGrid, optMap, lumPixel,
      normalizePixel, normalizeSample, r_coeff, g_coeff, b_coeff])

/-- C9: for every valid (non-empty, values in [0,1]) luminance grid, each
of the three variance values is non-negative. -/
theorem C9_variance_nonneg (g : List (List ℚ))
    (h1 : g.flatten ≠ [])
    (h2 : ∀ row ∈ g, ∀ v ∈ row, 0 ≤ v ∧ v ≤ 1) :
    0 ≤ variance_np g.flatten ∧ 0 ≤ variance_manual g.flatten ∧
      0 ≤ variance_mean g.flatten := by
  refine ⟨?_, ?_, variance_mean_nonneg _⟩
  · rw [variance_np_eq_variance_mean]
    exact variance_mean_nonneg _
  · rw [variance_manual_eq_variance_mean]
    exact variance_mean_nonneg _

/-- Witness for C9 at the concrete grid `[[1/2]]`. -/
theorem C9_witness :
    0 ≤ variance_np ([[1/2]] : List (List ℚ)).flatten ∧
      0 ≤ variance_manual ([[1/2]] : List (List ℚ)).flatten ∧
      0 ≤ variance_mean ([[1/2]] : List (List ℚ)).flatten :=
  C9_variance_nonneg [[1/2]] (by simp) (by norm_num)

/-- C10: every divisor in the pipeline is either the constant 255 (line
11) or `N = luminance.size` (lines 24, 30, 33, 34); with at least one
pixel all divisors are nonzero, and for a zero-pixel grid the divisor 0
occurs. -/
theorem C10_division_well_defined :
    (∀ l : List ℚ, 1 ≤ l.length → ∀ d ∈ pipelineDivisors l, d ≠ 0) ∧
      (0 : ℚ) ∈ pipelineDivisors ([] : List ℚ) := by
  constructor
  · intro l hl d hd
    have hne : (l.length : ℚ) ≠ 0 := Nat.cast_ne_zero.mpr (by omega)
    simp only [pipelineDivisors, List.mem_cons, List.mem_singleton,
      List.not_mem_nil, or_false] at hd
    rcases hd with rfl | rfl | rfl | rfl | rfl | rfl
    · norm_num
    all_goals exact hne
  · simp [pipelineDivisors]

/-- Witness for C10: the constant divisor 255 is nonzero on a one-element
luminance list. -/
theorem C10_witness : (255 : ℚ) ≠ 0 :=
  C10_division_well_defined.1 [1] (by simp) 255 (by simp [pipelineDivisors])

/-- C3: for every decoded pixel grid of samples in [0,255] whose pixels
all have at least 3 channels (written `R::G::B::rest`), the luminance
grid is defined and each of its elements equals
`0.2126·(R/255) + 0.7152·(G/255) + 0.0722·(B/255)`; the trailing
channels `rest` do not occur in the result. -/
theorem C3_luminance_formula (H W : ℕ)
    (R G B : ℕ → ℕ → ℕ) (rest : ℕ → ℕ → List ℕ)
    (hR : ∀ y x, R y x ≤ 255) (hG : ∀ y x, G y x ≤ 255)
    (hB : ∀ y x, B y x ≤ 255) :
    luminanceGrid (normalizeGrid ((List.range H).map fun y =>
        (List.range W).map fun x => R y x :: G y x :: B y x :: rest y x))
      = some ((List.range H).map fun y => (List.range W).map fun x =>
          r_coeff * ((R y x : ℚ) / 255) + g_coeff * ((G y x : ℚ) / 255)
            + b_coeff * ((B y x : ℚ) / 255)) := by
  unfold luminanceGrid normalizeGrid
  rw [List.map_map]
  refine optMap_map_of_forall _ _ _ _ ?_
  intro y _
  simp only [Function.comp]
  rw [List.map_map]
  refine optMap_map_of_forall _ _ _ _ ?_
  intro x _
  simp only [Function.comp]
  rw [lumPixel_normalize_cons]
  congr 1
  ring

/-- Witness for C3: a 1×1 image with RGB (255, 128, 0) and no extra
channels. -/
theorem C3_witness :
    luminanceGrid (normalizeGrid ((List.range 1).map fun y =>
        (List.range 1).map fun x =>
          (fun _ _ => 255) y x :: (fun _ _ => 128) y x
            :: (fun _ _ => 0) y x :: (fun _ _ : ℕ => ([] : List ℕ)) y x))
      = some ((List.range 1).map fun y => (List.range 1).map fun x =>
          r_coeff * (((fun _ _ => 255) y x : ℚ) / 255)
            + g_coeff * (((fun _ _ => 128) y x : ℚ) / 255)
            + b_coeff * (((fun _ _ => 0) y x : ℚ) / 255)) :=
  C3_luminance_formula 1 1 (fun _ _ => 255) (fun _ _ => 128) (fun _ _ => 0)
    (fun _ _ => ([] : List ℕ))
    (fun _ _ => by norm_num) (fun _ _ => by norm_num) (fun _ _ => by norm_num)

/-- C4: for every input pixel grid whose samples all lie in [0,255],
every element of the computed luminance grid lies in [0,1]. -/
theorem C4_luminance_range (img : List (List (List ℕ))) (lum : List (List ℚ))
    (hs : ∀ row ∈ img, ∀ px ∈ row, ∀ s ∈ px, s ≤ 255)
    (h : luminanceGrid (normalizeGrid img) = some lum) :
    ∀ row ∈ lum, ∀ v ∈ row, 0 ≤ v ∧ v ≤ 1 := by
  intro row hrow v hv
  obtain ⟨nrow, hnrow, hopt⟩ := mem_of_optMap _ _ _ h row hrow
  obtain ⟨npx, hnpx, hlum⟩ := mem_of_optMap _ _ _ hopt v hv
  simp only [normalizeGrid] at hnrow
  obtain ⟨row0, hrow0, rfl⟩ := List.mem_map.mp hnrow
  obtain ⟨px0, hpx0, rfl⟩ := List.mem_map.mp hnpx
  exact lumPixel_range (normalizePixel_range (hs row0 hrow0 px0 hpx0)) hlum

/-- Witness for C4: the luminance of a pure red 1×1 image, `0.2126`, lies
in [0,1]. -/
theorem C4_witness : 0 ≤ r_coeff ∧ r_coeff ≤ 1 :=
  C4_luminance_range [[[255, 0, 0]]] [[r_coeff]]
    (by norm_num)
    (by norm_num [luminanceGrid, normalizeGrid, optMap, lumPixel,
      normalizePixel, normalizeSample])
    [r_coeff] (by simp) r_coeff (by simp)

/-- C7: for every non-empty decoded pixel grid whose pixels all have the
same channel count `c < 3`, the luminance projection fails (the whole
pipeline result is `none`), and for every pixel the read of channel
index 1 or 2 is the out-of-range access. -/
theorem C7_missing_channels_fault (img : List (List (List ℕ))) (c : ℕ)
    (hne : img ≠ []) (hrows : ∀ row ∈ img, row ≠ [])
    (hc : ∀ row ∈ img, ∀ px ∈ row, px.length = c) (h3 : c < 3) :
    luminanceGrid (normalizeGrid img) = none ∧
      ∀ row ∈ img, ∀ px ∈ row,
        (normalizePixel px).get? 1 = none ∨ (normalizePixel px).get? 2 = none := by
  constructor
  · cases img with
    | nil => exact absurd rfl hne
    | cons row0 img2 =>
      obtain ⟨px0, row2, hr0⟩ :=
        List.exists_cons_of_ne_nil (hrows row0 (List.mem_cons_self _ _))
      have hp0mem : px0 ∈ row0 := by
        rw [hr0]
        exact List.mem_cons_self _ _
      have hlen : px0.length = c :=
        hc row0 (List.mem_cons_self _ _) px0 hp0mem
      have hnone : lumPixel (normalizePixel px0) = none :=
        lumPixel_eq_none (normalizePixel_get?_none (by omega))
      have hrownone :
          optMap lumPixel (row0.map normalizePixel) = none :=
        optMap_eq_none_of_mem lumPixel (normalizePixel px0) _
          (List.mem_map_of_mem _ hp0mem) hnone
      unfold luminanceGrid normalizeGrid
      exact optMap_eq_none_of_mem _ (row0.map normalizePixel) _
        (List.mem_map_of_mem _ (List.mem_cons_self _ _)) hrownone
  · intro row hrow px hpx
    right
    exact normalizePixel_get?_none (by rw [hc row hrow px hpx]; omega)

/-- Witness for C7: a 1×1 two-channel (e.g. luminance+alpha) image makes
the pipeline fault, with channel index 2 out of range. -/
theorem C7_witness :
    luminanceGrid (normalizeGrid [[[7, 8]]]) = none ∧
      ((normalizePixel [7, 8]).get? 1 = none ∨
        (normalizePixel [7, 8]).get? 2 = none) :=
  ⟨(C7_missing_channels_fault [[[7, 8]]] 2 (by simp) (by simp) (by simp)
      (by omega)).1,
    (C7_missing_channels_fault [[[7, 8]]] 2 (by simp) (by simp) (by simp)
      (by omega)).2 [[7, 8]] (by simp) [7, 8] (by simp)⟩

/-- C5: for every H×W luminance grid with values in [0,1], the histogram
of line 49 has 51 strictly increasing bin edges with first edge 0 and
last edge 1, and 50 non-negative counts summing to H·W. -/
theorem C5_histogram_shape (g : List (List ℚ)) (Hn Wn : ℕ)
    (hH : g.length = Hn) (hW : ∀ row ∈ g, row.length = Wn)
    (hr : ∀ row ∈ g, ∀ v ∈ row, 0 ≤ v ∧ v ≤ 1) :
    binEdges.length = 51 ∧ List.Pairwise (· < ·) binEdges ∧
      binEdges.get? 0 = some 0 ∧ binEdges.get? 50 = some 1 ∧
      (histCounts g.flatten).length = 50 ∧
      (∀ n ∈ histCounts g.flatten, 0 ≤ n) ∧
      (histCounts g.flatten).sum = Hn * Wn := by
  refine ⟨by simp [binEdges], binEdges_pairwise, ?_, ?_,
    by simp [histCounts], fun n _ => Nat.zero_le n, ?_⟩
  · simp [binEdges]
  · simp only [binEdges]
    rw [List.get?_map, List.get?_range (by norm_num : 50 < 51)]
    norm_num
  · rw [histCounts_sum]
    · rw [List.length_flatten]
      have hrep : g.map List.length = List.replicate Hn Wn := by
        refine List.eq_replicate.mpr ⟨by simp [hH], ?_⟩
        intro b hb
        obtain ⟨row, hrow, rfl⟩ := List.mem_map.mp hb
        exact hW row hrow
      rw [hrep, List.sum_replicate, smul_eq_mul]
    · intro v hv
      obtain ⟨row, hrow, hvr⟩ := List.mem_flatten.mp hv
      exact hr row hrow v hvr

/-- Witness for C5 at the concrete 1×1 grid `[[1/2]]`. -/
theorem C5_witness :
    binEdges.length = 51 ∧ binEdges.get? 0 = some 0 ∧
      binEdges.get? 50 = some 1 ∧
      (histCounts ([[1/2]] : List (List ℚ)).flatten).length = 50 ∧
      (histCounts ([[1/2]] : List (List ℚ)).flatten).sum = 1 * 1 :=
  have h := C5_histogram_shape [[1/2]] 1 1 (by simp) (by simp) (by norm_num)
  ⟨h.1, h.2.2.1, h.2.2.2.1, h.2.2.2.2.1, h.2.2.2.2.2.2⟩

/-- C6: binning semantics of line 49 — each of the first 49 bins is the
half-open interval `[i/50, (i+1)/50)`, the last bin is the closed
interval `[49/50, 1]` (so the value 1 lands in bin 49), and any value
outside [0,1] lies in no bin at all. -/
theorem C6_bin_semantics (v : ℚ) :
    (∀ i, i < 49 →
        (inBin i v = true ↔ ((i : ℚ) / 50 ≤ v ∧ v < ((i : ℚ) + 1) / 50))) ∧
      (inBin 49 v = true ↔ ((49 : ℚ) / 50 ≤ v ∧ v ≤ 1)) ∧
      (v = 1 → inBin 49 v = true) ∧
      ((v < 0 ∨ 1 < v) → ∀ i, i < 50 → inBin i v = false) := by
  refine ⟨fun i hi => inBin_lt_iff hi v, inBin_last_iff v, ?_, ?_⟩
  · rintro rfl
    exact (inBin_last_iff 1).mpr ⟨by norm_num, le_refl 1⟩
  · intro hout i hi
    rw [Bool.eq_false_iff]
    intro ht
    rcases Nat.lt_or_ge i 49 with h49 | h49
    · obtain ⟨hl, hu⟩ := (inBin_lt_iff h49 v).mp ht
      rcases hout with hv | hv
      · have hnn : (0:ℚ) ≤ (i:ℚ)/50 := by positivity
        linarith
      · have hii : (i:ℚ) ≤ 48 := by exact_mod_cast (by omega : i ≤ 48)
        have hle1 : ((i:ℚ) + 1)/50 ≤ 1 := by
          rw [div_le_one (by norm_num : (0:ℚ) < 50)]
          linarith
        linarith
    · have hi49 : i = 49 := by omega
      subst hi49
      obtain ⟨hl, hu⟩ := (inBin_last_iff v).mp ht
      rcases hout with hv | hv
      · have hnn : (0:ℚ) ≤ (49:ℚ)/50 := by norm_num
        linarith
      · linarith

/-- Witness for C6: bin 0 contains 0, and the value 1 lands in bin 49. -/
theorem C6_witness :
    (inBin 0 (0:ℚ) = true ↔ ((0:ℚ)/50 ≤ 0 ∧ (0:ℚ) < ((0:ℚ)+1)/50)) ∧
      inBin 49 (1:ℚ) = true :=
  ⟨by
    have h := (C6_bin_semantics 0).1 0 (by norm_num)
    exact_mod_cast h,
   (C6_bin_semantics 1).2.2.1 rfl⟩

/-- C8: a uniform image — every pixel the same color `r::g::b::rest` —
yields a constant luminance grid whose repeated value is `lumOf r g b`;
all three variance methods return exactly 0, and the histogram puts the
whole count H·W in the single bin `binIndex (lumOf r g b)`, every other
bin count being 0. -/
theorem C8_uniform_image (Hn Wn : ℕ) (r g b : ℕ) (rest : List ℕ)
    (hr : r ≤ 255) (hg : g ≤ 255) (hb : b ≤ 255)
    (hH : 1 ≤ Hn) (hW : 1 ≤ Wn) :
    luminanceGrid (normalizeGrid
        (List.replicate Hn (List.replicate Wn (r :: g :: b :: rest))))
      = some (List.replicate Hn (List.replicate Wn (lumOf r g b))) ∧
    (List.replicate Hn (List.replicate Wn (lumOf r g b))).flatten
      = List.replicate (Hn * Wn) (lumOf r g b) ∧
    variance_np (List.replicate (Hn * Wn) (lumOf r g b)) = 0 ∧
    variance_manual (List.replicate (Hn * Wn) (lumOf r g b)) = 0 ∧
    variance_mean (List.replicate (Hn * Wn) (lumOf r g b)) = 0 ∧
    binIndex (lumOf r g b) < 50 ∧
    (histCounts (List.replicate (Hn * Wn) (lumOf r g b))).get?
        (binIndex (lumOf r g b)) = some (Hn * Wn) ∧
    (∀ j, j < 50 → j ≠ binIndex (lumOf r g b) →
      (histCounts (List.replicate (Hn * Wn) (lumOf r g b))).get? j
        = some 0) := by
  have hn : Hn * Wn ≠ 0 := Nat.mul_ne_zero (by omega) (by omega)
  have hpx : ∀ s ∈ [r, g, b], s ≤ 255 := by
    intro s hs
    simp only [List.mem_cons, List.not_mem_nil, or_false] at hs
    rcases hs with rfl | rfl | rfl <;> assumption
  have hlp : lumPixel (normalizePixel (r :: g :: b :: ([] : List ℕ)))
      = some (lumOf r g b) := by
    rw [lumPixel_normalize_cons]
    rfl
  have hc := lumPixel_range (normalizePixel_range hpx) hlp
  obtain ⟨hbI, hbin⟩ := inBin_binIndex hc.1 hc.2
  refine ⟨?_, flatten_replicate _ _ _, ?_, ?_,
    variance_mean_replicate hn _, hbI, ?_, ?_⟩
  · unfold luminanceGrid normalizeGrid
    rw [List.map_replicate, List.map_replicate]
    refine optMap_replicate _ _ _ ?_ Hn
    refine optMap_replicate _ _ _ ?_ Wn
    rw [lumPixel_normalize_cons]
    rfl
  · rw [variance_np_eq_variance_mean]
    exact variance_mean_replicate hn _
  · rw [variance_manual_eq_variance_mean]
    exact variance_mean_replicate hn _
  · simp only [histCounts]
    rw [List.get?_map, List.get?_range hbI]
    simp only [Option.map_some']
    rw [countP_replicate, hbin]
    simp
  · intro j hj hne
    simp only [histCounts]
    rw [List.get?_map, List.get?_range hj]
    simp only [Option.map_some']
    rw [countP_replicate, inBin_eq_false_of_ne hbI hj hne hbin]
    simp

/-- Witness for C8: a 1×1 all-black image; its luminance 0 falls in bin
`binIndex (lumOf 0 0 0)` and bin 7 is empty. -/
theorem C8_witness :
    luminanceGrid (normalizeGrid
        (List.replicate 1 (List.replicate 1 (0 :: 0 :: 0 :: ([] : List ℕ)))))
      = some (List.replicate 1 (List.replicate 1 (lumOf 0 0 0))) ∧
    variance_np (List.replicate (1 * 1) (lumOf 0 0 0)) = 0 ∧
    variance_manual (List.replicate (1 * 1) (lumOf 0 0 0)) = 0 ∧
    variance_mean (List.replicate (1 * 1) (lumOf 0 0 0)) = 0 ∧
    (histCounts (List.replicate (1 * 1) (lumOf 0 0 0))).get?
        (binIndex (lumOf 0 0 0)) = some (1 * 1) ∧
    (histCounts (List.replicate (1 * 1) (lumOf 0 0 0))).get? 7 = some 0 :=
  have h := C8_uniform_image 1 1 0 0 0 []
    (by omega) (by omega) (by omega) (by omega) (by omega)
  ⟨h.1, h.2.2.1, h.2.2.2.1, h.2.2.2.2.1, h.2.2.2.2.2.2.1,
    h.2.2.2.2.2.2.2 7 (by omega) (by norm_num [binIndex, lumOf])⟩

end Luminance
